import Mathlib

/-!
Verification model of `carto-challenge/carto-mod.cpp`.

The program bins geolocated samples into a 256 x 256 grid restricted to a
fixed bounding box, computes per-cell averages by splitting the input into
`CONCURRENCY_LEVEL` slices aggregated independently and merged, and renders
the grid as a raster.

Modeling conventions:
* `float` / `double` values are rationals; every arithmetic result of the
  C++ program is rounded with `roundF 24` (binary32) or `roundF 53`
  (binary64), round to nearest with ties to even.  The exponent range is
  unbounded, which agrees with IEEE semantics for every quantity that
  appears here (all magnitudes lie far inside the normal range of binary32,
  and no operation overflows).
* `uint32_t` cell counts are natural numbers reduced modulo
  4294967296 (2 to the 32) at every increment and accumulation, matching
  the wraparound of 32 bit unsigned arithmetic.
* The cell array `std::vector<grid_pixel>` of size `grid_size` is a total
  function from the flat index to the cell; the theorem for the index
  computation shows every index the program dereferences is below
  `grid_size`.
-/

unseal Rat.mul Rat.add Rat.sub Rat.inv Rat.ofScientific

set_option maxRecDepth 8000

/-- Nearest integer to a rational, ties to even, as computed when a binary
floating-point operation rounds its exact result. -/
def roundNE (q : ℚ) : ℤ :=
  if q - ⌊q⌋ < 1/2 then ⌊q⌋
  else if 1/2 < q - ⌊q⌋ then ⌊q⌋ + 1
  else if ⌊q⌋ % 2 = 0 then ⌊q⌋ else ⌊q⌋ + 1

/-- Binary exponent search for `1 ≤ q`: number of halvings until the value
drops below 2.  The fuel argument only has to dominate the exponent. -/
def natExp : ℕ → ℚ → ℕ
  | 0, _ => 0
  | f + 1, q => if q < 2 then 0 else natExp f (q / 2) + 1

/-- Binary exponent search for `0 < q < 1`: number of doublings until the
value reaches 1. -/
def negExp : ℕ → ℚ → ℕ
  | 0, _ => 0
  | f + 1, q => if 1 ≤ q then 0 else negExp f (q * 2) + 1

/-- Binary exponent of a positive rational: the unique `e` with
`2 ^ e ≤ q < 2 ^ (e + 1)`.  The fuel passed to the searches is always
sufficient (`q < 2 ^ q.num.toNat` and `1 ≤ q * 2 ^ q.den`). -/
def qExp (q : ℚ) : ℤ :=
  if 1 ≤ q then (natExp q.num.toNat q : ℤ) else -(negExp q.den q : ℤ)

/-- Round a positive rational to a floating-point mantissa of `p` bits. -/
def roundPos (p : ℕ) (q : ℚ) : ℚ :=
  (roundNE (q * 2 ^ ((p : ℤ) - 1 - qExp q)) : ℚ) * 2 ^ (qExp q - ((p : ℤ) - 1))

/-- Round a rational to a floating-point mantissa of `p` bits (round to
nearest, ties to even, unbounded exponent). -/
def roundF (p : ℕ) (q : ℚ) : ℚ :=
  if q = 0 then 0 else if q < 0 then -roundPos p (-q) else roundPos p q

/-- Rounding of a `float` (binary32) arithmetic result. -/
def f32 (q : ℚ) : ℚ := roundF 24 q

/-- Rounding of a `double` (binary64) arithmetic result. -/
def f64 (q : ℚ) : ℚ := roundF 53 q

/-- Tile bounding box `{x_min, y_min, x_max, y_max}`: `const float BBOX[]`,
each entry a double literal converted to `float`. -/
def BBOX : Fin 4 → ℚ
  | 0 => f32 (f64 4970241.3272153)
  | 1 => f32 (f64 (-8257645.03970416))
  | 2 => f32 (f64 5009377.08569731)
  | 3 => f32 (f64 (-8218509.28122215))

/-- Tile size in pixels: `const uint32_t pixel_resolution = 256`. -/
def pixel_resolution : ℕ := 256

/-- Meters per pixel: `const float resolution = 152.874056570353`. -/
def resolution : ℚ := f32 (f64 152.874056570353)

/-- Helper constant: `const float resolution_inv = 1.0 / resolution`, a
double division converted to `float`. -/
def resolution_inv : ℚ := f32 (f64 (1 / resolution))

/-- Number of cells: `const int grid_size = pixel_resolution * pixel_resolution`. -/
def grid_size : ℕ := pixel_resolution * pixel_resolution

/-- Number of worker slices: `const int CONCURRENCY_LEVEL = 3`. -/
def CONCURRENCY_LEVEL : ℕ := 3

/-- One input sample: `struct row { float x, y, amount; }`. -/
structure row where
  x : ℚ
  y : ℚ
  amount : ℚ
deriving DecidableEq

/-- One cell: `struct grid_pixel { float avg; uint32_t count; }`, set to
zero by its constructor; the count is kept below 4294967296 by the wrapped
updates of `acc_row` and `merge_step`. -/
structure grid_pixel where
  avg : ℚ
  count : ℕ
deriving DecidableEq

/-- Horizontal cell coordinate of a record:
`uint32_t x = resolution_inv * (r.x - BBOX[0])`, two `float` operations and
a truncating conversion (the operand is nonnegative inside the box). -/
def cell_x (r : row) : ℕ := (⌊f32 (resolution_inv * f32 (r.x - BBOX 0))⌋).toNat

/-- Vertical cell coordinate of a record:
`uint32_t y = resolution_inv * (r.y - BBOX[1])`. -/
def cell_y (r : row) : ℕ := (⌊f32 (resolution_inv * f32 (r.y - BBOX 1))⌋).toNat

/-- The strict bounding-box test of `sequential_grid`:
`r.x > BBOX[0] && r.x < BBOX[2] && r.y > BBOX[1] && r.y < BBOX[3]`. -/
def in_bbox (r : row) : Prop :=
  BBOX 0 < r.x ∧ r.x < BBOX 2 ∧ BBOX 1 < r.y ∧ r.y < BBOX 3

instance (r : row) : Decidable (in_bbox r) := by
  unfold in_bbox; infer_instance

/-- Flat index of the cell a record falls in, `none` outside the open box;
inside the box the program dereferences `hist[x * pixel_resolution + y]`. -/
def cell_index (r : row) : Option ℕ :=
  if in_bbox r then some (cell_x r * pixel_resolution + cell_y r) else none

/-- The zeroed cell array `hist.resize(grid_size)`. -/
def g0 : ℕ → grid_pixel := fun _ => ⟨0, 0⟩

/-- Processing of one record by the loop body of `sequential_grid`:
`++px.count; px.avg += r.amount;` on the indexed cell when the record is
inside the box.  The increment wraps modulo 4294967296 as `uint32_t`
arithmetic does, and the addition is a `float` operation. -/
def acc_row (g : ℕ → grid_pixel) (r : row) : ℕ → grid_pixel :=
  match cell_index r with
  | none => g
  | some i => fun j =>
      if j = i then ⟨f32 ((g i).avg + r.amount), ((g i).count + 1) % 4294967296⟩ else g j

/-- Partition aggregator `sequential_grid(begin, end, promise)`: folds the
slice into a zeroed cell array and delivers it through the promise. -/
def sequential_grid (rs : List row) : ℕ → grid_pixel := rs.foldl acc_row g0

/-- Slice size chosen by `grid`: `auto split_size = rows.size() / CONCURRENCY_LEVEL`
(integer division).  The concurrency level is kept as a parameter so that the
partition behavior can be compared across its observed values. -/
def split_size (K : ℕ) (rs : List row) : ℕ := rs.length / K

/-- The `K` slices handed to the workers: worker `i` gets the iterator range
`[rows.begin() + split_size * i, rows.begin() + split_size * (i + 1))`. -/
def partitions (K : ℕ) (rs : List row) : List (List row) :=
  (List.range K).map fun i => (rs.drop (split_size K rs * i)).take (split_size K rs)

/-- Body of the accumulation loop of the merge step at cell `i`:
`pixel.count += result[i].count; pixel.avg += result[i].avg;` (the count
addition wraps modulo 4294967296 as `uint32_t` arithmetic does, the `avg`
addition is a `float` operation). -/
def merge_step (i : ℕ) (p : grid_pixel) (g : ℕ → grid_pixel) : grid_pixel :=
  ⟨f32 (p.avg + (g i).avg), (p.count + (g i).count) % 4294967296⟩

/-- Accumulation loop of the merge step at one cell, over all partial grids,
starting from a pixel whose fields are zero. -/
def merge_acc (results : List (ℕ → grid_pixel)) (i : ℕ) : grid_pixel :=
  results.foldl (merge_step i) ⟨0, 0⟩

/-- Merge step at one cell: after accumulation,
`if (pixel.count) pixel.avg /= pixel.count;`. -/
def merge_cell (results : List (ℕ → grid_pixel)) (i : ℕ) : grid_pixel :=
  if (merge_acc results i).count ≠ 0 then
    ⟨f32 ((merge_acc results i).avg / ((merge_acc results i).count : ℚ)),
      (merge_acc results i).count⟩
  else merge_acc results i

/-- The parallel reducer `grid(rows)` with the concurrency level as a
parameter: split, aggregate each slice, join, merge. -/
def gridK (K : ℕ) (rs : List row) : ℕ → grid_pixel :=
  fun i => merge_cell ((partitions K rs).map sequential_grid) i

/-- The reducer as compiled: `CONCURRENCY_LEVEL` slices. -/
def grid (rs : List row) : ℕ → grid_pixel := gridK CONCURRENCY_LEVEL rs

/-- One parsed row of `read`: `sscanf(line.c_str(), "%f %f %f", &r.amount,
&r.y, &r.x)` assigns the matched prefix of the three conversions and leaves
the rest of the freshly declared `row` indeterminate (`none`). -/
structure scanned_row where
  amount : Option ℚ
  y : Option ℚ
  x : Option ℚ
deriving DecidableEq

/-- Scanning of one line, whose whitespace-separated fields are given as
`some v` when the field parses as a number and `none` otherwise: `sscanf`
stops at the first conversion failure. -/
def scan_line (fields : List (Option ℚ)) : scanned_row :=
  match fields with
  | some a :: some b :: some c :: _ => ⟨some a, some b, some c⟩
  | some a :: some b :: _ => ⟨some a, some b, none⟩
  | some a :: _ => ⟨some a, none, none⟩
  | _ => ⟨none, none, none⟩

/-- Ingestion loop of `read`: every line of the file produces one pushed
row; the result of `sscanf` is not inspected. -/
def read (lines : List (List (Option ℚ))) : List scanned_row :=
  lines.map scan_line

/-- Normalization weight of one cell as computed by `write_ppm`:
`px.count * px.avg` in `float` arithmetic. -/
def cell_weight (g : ℕ → grid_pixel) (i : ℕ) : ℚ :=
  f32 (((g i).count : ℚ) * (g i).avg)

/-- Normalization denominator of `write_ppm`: the value
`max_px->avg * max_px->count` of the `std::max_element` scan over the grid. -/
def max_weight (g : ℕ → grid_pixel) : ℚ :=
  ((List.range grid_size).map (cell_weight g)).foldl max (cell_weight g 0)

/-- Index formula asserted by the specification for the cell mapping:
`row * resolution_pixels + col` with `col` computed from the x coordinate
and `row` computed from the y coordinate.  It is stated over the same strict
box test and the same float pipeline as the code, so that it differs from
`cell_index` exactly in the placement of the two cell coordinates; it exists
only to be compared against `cell_index`. -/
def cell_index_spec (r : row) : Option ℕ :=
  if in_bbox r then some (cell_y r * pixel_resolution + cell_x r) else none

/-- A record inside the bounding box, 200 meters east and 10 meters north of
the southwest corner of the box, with amount 1. -/
def r_in : row := ⟨4970441.5, -8257635, 1⟩

/-- Four records, used to exhibit the remainder handling of the split. -/
def rows4 : List row := [⟨0, 0, 1⟩, ⟨0, 0, 2⟩, ⟨0, 0, 3⟩, ⟨0, 0, 4⟩]

/-- Five equal in-box records, used to compare concurrency levels. -/
def rows5 : List row := List.replicate 5 r_in

/-- Two records mapping to the same cell with amounts 10 and 20. -/
def rows_pair : List row := [⟨4970441.5, -8257635, 10⟩, ⟨4970441.5, -8257635, 20⟩]

/-- Field model of the three-line input text holding `1 2 3`, then `bad`,
then `4 5 6`: the middle line has a single non-numeric field. -/
def bad_input : List (List (Option ℚ)) :=
  [[some 1, some 2, some 3], [none], [some 4, some 5, some 6]]


/-- The nearest-integer rounding never exceeds its argument by more than one half. -/
lemma roundNE_le_half (q : ℚ) : (roundNE q : ℚ) ≤ q + 1/2 := by
  have h1 : (⌊q⌋ : ℚ) ≤ q := Int.floor_le q
  unfold roundNE
  split_ifs with hlt hgt heven
  · linarith
  · push_cast; linarith [not_lt.mp hlt]
  · linarith
  · push_cast; linarith [not_lt.mp hlt]

/-- The nearest-integer rounding of a nonnegative rational is nonnegative. -/
lemma roundNE_nonneg (q : ℚ) (hq : 0 ≤ q) : 0 ≤ roundNE q := by
  have h0 : (0:ℤ) ≤ ⌊q⌋ := Int.floor_nonneg.mpr hq
  unfold roundNE; split_ifs <;> omega

/-- Correctness of the upward exponent search under sufficient fuel. -/
lemma natExp_spec : ∀ (f : ℕ) (q : ℚ), 1 ≤ q → q < 2 ^ f →
    2 ^ natExp f q ≤ q ∧ q < 2 ^ (natExp f q + 1) := by
  intro f
  induction f with
  | zero =>
    intro q h1 h2
    simp only [pow_zero] at h2
    linarith
  | succ f ih =>
    intro q h1 h2
    by_cases hq : q < 2
    · rw [natExp, if_pos hq]
      exact ⟨by simpa using h1, by simpa using hq⟩
    · push_neg at hq
      have h1h : 1 ≤ q / 2 := by rw [le_div_iff (by norm_num : (0:ℚ) < 2)]; linarith
      have h2h : q / 2 < 2 ^ f := by
        rw [div_lt_iff (by norm_num : (0:ℚ) < 2)]
        calc q < 2 ^ (f + 1) := h2
          _ = 2 ^ f * 2 := by rw [pow_succ]
      obtain ⟨a, b⟩ := ih (q / 2) h1h h2h
      rw [natExp, if_neg (not_lt.mpr hq)]
      constructor
      · rw [pow_succ]
        calc (2:ℚ) ^ natExp f (q / 2) * 2 ≤ q / 2 * 2 :=
              mul_le_mul_of_nonneg_right a (by norm_num)
          _ = q := by ring
      · calc q = q / 2 * 2 := by ring
          _ < 2 ^ (natExp f (q / 2) + 1) * 2 := by linarith
          _ = 2 ^ (natExp f (q / 2) + 1 + 1) := (pow_succ 2 _).symm

/-- Correctness of the downward exponent search under sufficient fuel. -/
lemma negExp_spec : ∀ (f : ℕ) (q : ℚ), 0 < q → q < 2 → 1 ≤ q * 2 ^ f →
    1 ≤ q * 2 ^ negExp f q ∧ q * 2 ^ negExp f q < 2 := by
  intro f
  induction f with
  | zero =>
    intro q h0 h2 hf
    simp only [pow_zero, mul_one] at hf
    rw [negExp]
    exact ⟨by simpa using hf, by simpa using h2⟩
  | succ f ih =>
    intro q h0 h2 hf
    by_cases hq : 1 ≤ q
    · rw [negExp, if_pos hq]
      exact ⟨by simpa using hq, by simpa using h2⟩
    · push_neg at hq
      have hfh : 1 ≤ q * 2 * 2 ^ f := by
        calc (1:ℚ) ≤ q * 2 ^ (f + 1) := hf
          _ = q * 2 * 2 ^ f := by rw [pow_succ]; ring
      obtain ⟨a, b⟩ := ih (q * 2) (by linarith) (by linarith) hfh
      rw [negExp, if_neg (not_le.mpr hq)]
      have he : q * 2 ^ (negExp f (q * 2) + 1) = q * 2 * 2 ^ negExp f (q * 2) := by
        rw [pow_succ]; ring
      rw [he]
      exact ⟨a, b⟩

/-- A nonnegative rational is at most its numerator. -/
lemma rat_le_num (q : ℚ) (hq : 0 ≤ q) : q ≤ (q.num : ℚ) := by
  conv_lhs => rw [← Rat.num_div_den q]
  apply div_le_self
  · exact_mod_cast Rat.num_nonneg.mpr hq
  · exact_mod_cast q.den_pos

/-- The numerator fuel dominates the binary exponent of a rational above one. -/
lemma num_lt_two_pow (q : ℚ) (hq : 1 ≤ q) : q < 2 ^ q.num.toNat := by
  have h0 : (0:ℤ) ≤ q.num := Rat.num_nonneg.mpr (by linarith)
  have hn : q.num.toNat < 2 ^ q.num.toNat := Nat.lt_two_pow _
  have h2 : (q.num : ℚ) < 2 ^ q.num.toNat := by
    calc (q.num : ℚ) = (q.num.toNat : ℚ) := by exact_mod_cast (Int.toNat_of_nonneg h0).symm
      _ < ((2 ^ q.num.toNat : ℕ) : ℚ) := by exact_mod_cast hn
      _ = 2 ^ q.num.toNat := by push_cast; ring
  linarith [rat_le_num q (by linarith)]

/-- The denominator fuel suffices for the downward exponent search. -/
lemma den_fuel (q : ℚ) (hq : 0 < q) : 1 ≤ q * 2 ^ q.den := by
  have hd : ((q.den : ℚ)) ≠ 0 := by
    have := q.den_pos
    positivity
  have h3 : (q.num : ℚ) = q * q.den := (div_eq_iff hd).mp (Rat.num_div_den q)
  have hnum1 : (1:ℚ) ≤ q * q.den := by
    rw [← h3]
    have h4 : (1:ℤ) ≤ q.num := by have := Rat.num_pos.mpr hq; omega
    exact_mod_cast h4
  have hden : (q.den : ℚ) ≤ 2 ^ q.den := by
    have := (Nat.lt_two_pow q.den).le
    calc ((q.den : ℕ) : ℚ) ≤ ((2 ^ q.den : ℕ) : ℚ) := by exact_mod_cast this
      _ = 2 ^ q.den := by push_cast; ring
  calc (1:ℚ) ≤ q * q.den := hnum1
    _ ≤ q * 2 ^ q.den := mul_le_mul_of_nonneg_left hden hq.le

/-- Bracketing property of the binary exponent of a positive rational. -/
lemma qExp_spec (q : ℚ) (hq : 0 < q) : (2:ℚ) ^ qExp q ≤ q ∧ q < 2 ^ (qExp q + 1) := by
  by_cases h1 : 1 ≤ q
  · obtain ⟨a, b⟩ := natExp_spec q.num.toNat q h1 (num_lt_two_pow q h1)
    rw [qExp, if_pos h1]
    constructor
    · rw [zpow_natCast]; exact a
    · have he : (natExp q.num.toNat q : ℤ) + 1 = ((natExp q.num.toNat q + 1 : ℕ) : ℤ) := by
        push_cast; ring
      rw [he, zpow_natCast]; exact b
  · push_neg at h1
    obtain ⟨a, b⟩ := negExp_spec q.den q hq (by linarith) (den_fuel q hq)
    rw [qExp, if_neg (not_le.mpr h1)]
    have hp : (0:ℚ) < 2 ^ negExp q.den q := by positivity
    constructor
    · rw [zpow_neg, zpow_natCast, inv_eq_one_div, div_le_iff hp]
      linarith
    · have he : (2:ℚ) ^ (-(negExp q.den q : ℤ) + 1) = 2 / 2 ^ negExp q.den q := by
        rw [zpow_add₀ (by norm_num : (2:ℚ) ≠ 0), zpow_neg, zpow_natCast, zpow_one]
        ring
      rw [he, lt_div_iff hp]
      linarith

/-- Relative error bound of the rounding of a positive rational: rounding
to a `p` bit mantissa grows the value by a factor of at most `1 + 2 ^ (-p)`. -/
lemma roundPos_le (p : ℕ) (q : ℚ) (hq : 0 < q) :
    roundPos p q ≤ q * (1 + 2 ^ (-(p : ℤ))) := by
  obtain ⟨h1, _⟩ := qExp_spec q hq
  have hpow : (0:ℚ) < 2 ^ (qExp q - ((p:ℤ) - 1)) := by positivity
  have step := mul_le_mul_of_nonneg_right
    (roundNE_le_half (q * 2 ^ ((p:ℤ) - 1 - qExp q))) hpow.le
  have key : (q * 2 ^ ((p:ℤ) - 1 - qExp q) + 1/2) * 2 ^ (qExp q - ((p:ℤ) - 1))
      = q + 2 ^ (qExp q - (p:ℤ)) := by
    have e1 : ((p:ℤ) - 1 - qExp q) + (qExp q - ((p:ℤ) - 1)) = 0 := by ring
    have e2 : qExp q - ((p:ℤ) - 1) = (qExp q - (p:ℤ)) + 1 := by ring
    rw [add_mul, mul_assoc, ← zpow_add₀ (by norm_num : (2:ℚ) ≠ 0), e1, zpow_zero, mul_one, e2,
      zpow_add_one₀ (by norm_num : (2:ℚ) ≠ 0)]
    ring
  have tail : (2:ℚ) ^ (qExp q - (p:ℤ)) ≤ q * 2 ^ (-(p:ℤ)) := by
    have hsplit : (2:ℚ) ^ (qExp q - (p:ℤ)) = 2 ^ qExp q * 2 ^ (-(p:ℤ)) := by
      rw [← zpow_add₀ (by norm_num : (2:ℚ) ≠ 0), sub_eq_add_neg]
    rw [hsplit]
    exact mul_le_mul_of_nonneg_right h1 (by positivity)
  have main : roundPos p q ≤ q + 2 ^ (qExp q - (p:ℤ)) := by
    unfold roundPos
    exact step.trans_eq key
  calc roundPos p q ≤ q + 2 ^ (qExp q - (p:ℤ)) := main
    _ ≤ q + q * 2 ^ (-(p:ℤ)) := by linarith
    _ = q * (1 + 2 ^ (-(p:ℤ))) := by ring

/-- Relative error bound of `roundF` on nonnegative arguments. -/
lemma roundF_le (p : ℕ) (q : ℚ) (hq : 0 ≤ q) : roundF p q ≤ q * (1 + 2 ^ (-(p:ℤ))) := by
  rcases eq_or_lt_of_le hq with h | h
  · rw [roundF, if_pos h.symm, ← h]
    simp
  · rw [roundF, if_neg h.ne.symm, if_neg (not_lt.mpr h.le)]
    exact roundPos_le p q h

/-- Rounding preserves nonnegativity. -/
lemma roundF_nonneg (p : ℕ) (q : ℚ) (hq : 0 ≤ q) : 0 ≤ roundF p q := by
  rcases eq_or_lt_of_le hq with h | h
  · rw [roundF, if_pos h.symm]
  · rw [roundF, if_neg h.ne.symm, if_neg (not_lt.mpr h.le)]
    unfold roundPos
    apply mul_nonneg
    · exact_mod_cast roundNE_nonneg _ (by positivity)
    · positivity

/-- Specialization of the error bound to `float` rounding. -/
lemma f32_le (q : ℚ) (hq : 0 ≤ q) : f32 q ≤ q * (16777217/16777216) := by
  rw [f32]
  calc roundF 24 q ≤ q * (1 + 2 ^ (-((24:ℕ):ℤ))) := roundF_le 24 q hq
    _ = q * (16777217/16777216) := by norm_num [zpow_neg, zpow_natCast]

/-- Specialization of nonnegativity to `float` rounding. -/
lemma f32_nonneg (q : ℚ) (hq : 0 ≤ q) : 0 ≤ f32 q := roundF_nonneg 24 q hq

/-- The nearest-integer rounding never falls short of its argument by more
than one half. -/
lemma roundNE_ge_half (q : ℚ) : q - 1/2 ≤ (roundNE q : ℚ) := by
  have h2 : q < ⌊q⌋ + 1 := Int.lt_floor_add_one q
  unfold roundNE
  split_ifs with hlt hgt heven
  · linarith
  · push_cast; linarith
  · linarith [not_lt.mp hgt]
  · push_cast; linarith

/-- Lower relative error bound of the rounding of a positive rational. -/
lemma roundPos_ge (p : ℕ) (q : ℚ) (hq : 0 < q) :
    q * (1 - 2 ^ (-(p : ℤ))) ≤ roundPos p q := by
  obtain ⟨h1, _⟩ := qExp_spec q hq
  have hpow : (0:ℚ) < 2 ^ (qExp q - ((p:ℤ) - 1)) := by positivity
  have step := mul_le_mul_of_nonneg_right
    (roundNE_ge_half (q * 2 ^ ((p:ℤ) - 1 - qExp q))) hpow.le
  have key : (q * 2 ^ ((p:ℤ) - 1 - qExp q) - 1/2) * 2 ^ (qExp q - ((p:ℤ) - 1))
      = q - 2 ^ (qExp q - (p:ℤ)) := by
    have e1 : ((p:ℤ) - 1 - qExp q) + (qExp q - ((p:ℤ) - 1)) = 0 := by ring
    have e2 : qExp q - ((p:ℤ) - 1) = (qExp q - (p:ℤ)) + 1 := by ring
    rw [sub_mul, mul_assoc, ← zpow_add₀ (by norm_num : (2:ℚ) ≠ 0), e1, zpow_zero, mul_one, e2,
      zpow_add_one₀ (by norm_num : (2:ℚ) ≠ 0)]
    ring
  have tail : (2:ℚ) ^ (qExp q - (p:ℤ)) ≤ q * 2 ^ (-(p:ℤ)) := by
    have hsplit : (2:ℚ) ^ (qExp q - (p:ℤ)) = 2 ^ qExp q * 2 ^ (-(p:ℤ)) := by
      rw [← zpow_add₀ (by norm_num : (2:ℚ) ≠ 0), sub_eq_add_neg]
    rw [hsplit]
    exact mul_le_mul_of_nonneg_right h1 (by positivity)
  have main : q - 2 ^ (qExp q - (p:ℤ)) ≤ roundPos p q := by
    unfold roundPos
    exact key ▸ step
  calc q * (1 - 2 ^ (-(p:ℤ))) = q - q * 2 ^ (-(p:ℤ)) := by ring
    _ ≤ q - 2 ^ (qExp q - (p:ℤ)) := by linarith
    _ ≤ roundPos p q := main

/-- Lower relative error bound of `roundF` on nonnegative arguments. -/
lemma roundF_ge (p : ℕ) (q : ℚ) (hq : 0 ≤ q) : q * (1 - 2 ^ (-(p:ℤ))) ≤ roundF p q := by
  rcases eq_or_lt_of_le hq with h | h
  · rw [roundF, if_pos h.symm, ← h]
    simp
  · rw [roundF, if_neg h.ne.symm, if_neg (not_lt.mpr h.le)]
    exact roundPos_ge p q h

/-- Specialization of the lower bound to `float` rounding. -/
lemma f32_ge (q : ℚ) (hq : 0 ≤ q) : q * (16777215/16777216) ≤ f32 q := by
  rw [f32]
  calc q * (16777215/16777216) = q * (1 - 2 ^ (-((24:ℕ):ℤ))) := by
        norm_num [zpow_neg, zpow_natCast]
    _ ≤ roundF 24 q := roundF_ge 24 q hq

/-- Adding one amount of value one to a cell value of at least one keeps the
rounded value at least one. -/
lemma one_le_f32_add_one (a : ℚ) (ha : 1 ≤ a) : 1 ≤ f32 (a + 1) := by
  have h2 : (0:ℚ) ≤ a + 1 := by linarith
  calc (1:ℚ) ≤ 2 * (16777215/16777216) := by norm_num
    _ ≤ (a + 1) * (16777215/16777216) :=
        mul_le_mul_of_nonneg_right (by linarith) (by norm_num)
    _ ≤ f32 (a + 1) := f32_ge (a + 1) h2

/-- A record outside the box leaves the cell array unchanged. -/
lemma acc_row_none (g : ℕ → grid_pixel) (r : row) (h : cell_index r = none) :
    acc_row g r = g := by
  unfold acc_row
  rw [h]

/-- A record inside the box updates exactly the indexed cell. -/
lemma acc_row_some (g : ℕ → grid_pixel) (r : row) (idx : ℕ) (h : cell_index r = some idx) :
    acc_row g r =
      fun j => if j = idx then
        ⟨f32 ((g idx).avg + r.amount), ((g idx).count + 1) % 4294967296⟩ else g j := by
  unfold acc_row
  rw [h]

/-- Value of the updated cell after one in-box record. -/
lemma acc_row_at (g : ℕ → grid_pixel) (r : row) (idx : ℕ) (h : cell_index r = some idx) :
    (acc_row g r) idx = ⟨f32 ((g idx).avg + r.amount), ((g idx).count + 1) % 4294967296⟩ := by
  rw [acc_row_some g r idx h]
  simp

/-- Cells other than the indexed one are untouched by an in-box record. -/
lemma acc_row_at_ne (g : ℕ → grid_pixel) (r : row) (idx j : ℕ) (h : cell_index r = some idx)
    (hne : j ≠ idx) : (acc_row g r) j = g j := by
  rw [acc_row_some g r idx h]
  simp [hne]

/-- Processing one record preserves both the zero-value property of
untouched cells and a headroom bound that rules out count wraparound: if
every cell still has room for the remaining records, the updated count is an
exact increment and never wraps to zero. -/
lemma foldl_acc_row_inv : ∀ (rs : List row) (g : ℕ → grid_pixel),
    (∀ i, (g i).count = 0 → (g i).avg = 0) →
    (∀ i, (g i).count + rs.length < 4294967296) →
    ∀ i, ((rs.foldl acc_row g) i).count = 0 → ((rs.foldl acc_row g) i).avg = 0 := by
  intro rs
  induction rs with
  | nil => intro g hinv _; exact hinv
  | cons r rs ih =>
    intro g hinv hbound
    rw [List.foldl_cons]
    have hlen : (r :: rs).length = rs.length + 1 := rfl
    apply ih (acc_row g r)
    · intro i
      rcases hc : cell_index r with _ | idx
      · rw [acc_row_none g r hc]
        exact hinv i
      · by_cases hij : i = idx
        · subst hij
          intro h0
          have h0m : ((g i).count + 1) % 4294967296 = 0 := by
            rw [acc_row_at g r i hc] at h0
            exact h0
          have hb := hbound i
          rw [hlen] at hb
          omega
        · intro h0
          rw [acc_row_at_ne g r idx i hc hij] at h0 ⊢
          exact hinv i h0
    · intro i
      have hb := hbound i
      rw [hlen] at hb
      rcases hc : cell_index r with _ | idx
      · rw [acc_row_none g r hc]
        omega
      · by_cases hij : i = idx
        · subst hij
          have hval : ((acc_row g r) i).count = ((g i).count + 1) % 4294967296 := by
            rw [acc_row_at g r i hc]
          rw [hval]
          have hm := Nat.mod_le ((g i).count + 1) 4294967296
          omega
        · rw [acc_row_at_ne g r idx i hc hij]
          omega

/-- In every partial grid built from fewer than 4294967296 records a cell
with a zero count has a zero value. -/
lemma sequential_grid_inv (rs : List row) (hlen : rs.length < 4294967296) (i : ℕ)
    (h : (sequential_grid rs i).count = 0) : (sequential_grid rs i).avg = 0 :=
  foldl_acc_row_inv rs g0 (fun _ _ => rfl) (fun _ => by simpa [g0] using hlen) i h

/-- Each aggregation step grows a count by at most one. -/
lemma foldl_acc_row_count_le : ∀ (rs : List row) (g : ℕ → grid_pixel) (i : ℕ),
    ((rs.foldl acc_row g) i).count ≤ (g i).count + rs.length := by
  intro rs
  induction rs with
  | nil => intro g i; simp
  | cons r rs ih =>
    intro g i
    rw [List.foldl_cons]
    have h1 := ih (acc_row g r) i
    have h2 : ((acc_row g r) i).count ≤ (g i).count + 1 := by
      rcases hc : cell_index r with _ | idx
      · rw [acc_row_none g r hc]
        omega
      · by_cases hij : i = idx
        · subst hij
          have hval : ((acc_row g r) i).count = ((g i).count + 1) % 4294967296 := by
            rw [acc_row_at g r i hc]
          rw [hval]
          exact Nat.mod_le _ _
        · rw [acc_row_at_ne g r idx i hc hij]
          omega
    have hlen : (r :: rs).length = rs.length + 1 := rfl
    omega

/-- A partial grid never counts more records than its slice holds. -/
lemma sequential_grid_count_le (rs : List row) (i : ℕ) :
    (sequential_grid rs i).count ≤ rs.length := by
  have := foldl_acc_row_count_le rs g0 i
  simpa [sequential_grid, g0] using this

/-- Every slice produced by the split has length exactly `split_size`. -/
lemma partitions_map_length (K : ℕ) (rs : List row) :
    (partitions K rs).map List.length = List.replicate K (split_size K rs) := by
  unfold partitions
  rw [List.map_map]
  apply List.eq_replicate.mpr
  constructor
  · simp
  · intro b hb
    simp only [List.mem_map, List.mem_range, Function.comp] at hb
    obtain ⟨i, hi, rfl⟩ := hb
    rw [List.length_take, List.length_drop]
    have h2 : split_size K rs * K ≤ rs.length := by
      unfold split_size
      exact Nat.div_mul_le_self rs.length K
    have h1 : split_size K rs * (i + 1) ≤ split_size K rs * K :=
      Nat.mul_le_mul_left _ hi
    have h3 : split_size K rs * (i + 1) = split_size K rs * i + split_size K rs := by ring
    omega

/-- The slice lengths sum to at most the record count: the split processes
no record twice. -/
lemma partitions_total_le (K : ℕ) (rs : List row) :
    ((partitions K rs).map List.length).sum ≤ rs.length := by
  rw [partitions_map_length, List.sum_replicate, smul_eq_mul]
  unfold split_size
  rw [mul_comm]
  exact Nat.div_mul_le_self rs.length K

/-- Folding wrapped additions of naturals whose total stays below the
modulus is an exact sum: no step wraps. -/
lemma foldl_wrap_add : ∀ (cs : List ℕ) (a : ℕ), a + cs.sum < 4294967296 →
    cs.foldl (fun x c => (x + c) % 4294967296) a = a + cs.sum := by
  intro cs
  induction cs with
  | nil => intro a _; simp
  | cons c cs ih =>
    intro a h
    rw [List.sum_cons] at h
    rw [List.foldl_cons, List.sum_cons]
    have h1 : (a + c) % 4294967296 = a + c := by omega
    rw [h1, ih (a + c) (by omega)]
    omega

/-- The count component of the merge accumulation is the wrapped-addition
fold of the partial counts. -/
lemma foldl_merge_step_count_eq : ∀ (results : List (ℕ → grid_pixel)) (p : grid_pixel) (i : ℕ),
    (List.foldl (merge_step i) p results).count
      = (results.map fun g => (g i).count).foldl (fun x c => (x + c) % 4294967296) p.count := by
  intro results
  induction results with
  | nil => intro p i; rfl
  | cons g gs ih =>
    intro p i
    rw [List.foldl_cons, List.map_cons, List.foldl_cons]
    exact ih (merge_step i p g) i

/-- The merged count at a cell equals the sum of the partial counts whenever
that sum stays below the `uint32_t` modulus, so that no accumulation step
wraps. -/
lemma foldl_merge_step_count (results : List (ℕ → grid_pixel)) (p : grid_pixel) (i : ℕ)
    (h : p.count + (results.map fun g => (g i).count).sum < 4294967296) :
    (List.foldl (merge_step i) p results).count
      = p.count + (results.map fun g => (g i).count).sum := by
  rw [foldl_merge_step_count_eq]
  exact foldl_wrap_add _ _ h

/-- Accumulating partial grids that are all zero at a cell yields the zero
pixel at that cell. -/
lemma merge_acc_zero : ∀ (results : List (ℕ → grid_pixel)) (i : ℕ),
    (∀ g ∈ results, (g i).count = 0 ∧ (g i).avg = 0) → merge_acc results i = ⟨0, 0⟩ := by
  intro results
  induction results with
  | nil => intro i _; rfl
  | cons g gs ih =>
    intro i h
    obtain ⟨hc, ha⟩ := h g (List.mem_cons_self g gs)
    have hstep : merge_step i ⟨0, 0⟩ g = ⟨0, 0⟩ := by
      unfold merge_step
      rw [hc, ha]
      simp [f32, roundF]
    show List.foldl (merge_step i) ⟨0, 0⟩ (g :: gs) = ⟨0, 0⟩
    rw [List.foldl_cons, hstep]
    exact ih i (fun g2 hg2 => h g2 (List.mem_cons_of_mem g hg2))

/-- A zero merged count forces the final cell to be the zero pixel, for
inputs of fewer than 4294967296 records (so that neither the per-slice
increments nor the merge accumulation wrap). -/
lemma gridK_inv (K : ℕ) (rs : List row) (hlen : rs.length < 4294967296) (i : ℕ)
    (h : (gridK K rs i).count = 0) : (gridK K rs i).avg = 0 := by
  have hgrid : gridK K rs i = merge_cell ((partitions K rs).map sequential_grid) i := rfl
  rw [hgrid] at h ⊢
  by_cases hc : (merge_acc ((partitions K rs).map sequential_grid) i).count ≠ 0
  · unfold merge_cell at h
    rw [if_pos hc] at h
    exact absurd h hc
  · unfold merge_cell at h ⊢
    rw [if_neg hc] at h ⊢
    push_neg at hc
    have htot : ((((partitions K rs).map sequential_grid).map
        fun g => (g i).count)).sum ≤ rs.length := by
      rw [List.map_map]
      calc ((partitions K rs).map ((fun g => (g i).count) ∘ sequential_grid)).sum
          ≤ ((partitions K rs).map List.length).sum := by
            apply List.sum_le_sum
            intro slice _
            exact sequential_grid_count_le slice i
        _ ≤ rs.length := partitions_total_le K rs
    have hexact := foldl_merge_step_count ((partitions K rs).map sequential_grid)
      ⟨0, 0⟩ i (by simpa using lt_of_le_of_lt htot hlen)
    have hsum : (((partitions K rs).map sequential_grid).map fun g => (g i).count).sum = 0 := by
      unfold merge_acc at hc
      rw [hexact] at hc
      simpa using hc
    have hslice : ∀ slice ∈ partitions K rs, slice.length < 4294967296 := by
      intro slice hs
      have hm : slice.length ∈ (partitions K rs).map List.length :=
        List.mem_map_of_mem _ hs
      rw [partitions_map_length] at hm
      have := List.eq_of_mem_replicate hm
      rw [this]
      exact lt_of_le_of_lt (Nat.div_le_self rs.length K) hlen
    have hall : ∀ g ∈ (partitions K rs).map sequential_grid,
        (g i).count = 0 ∧ (g i).avg = 0 := by
      intro g hg
      have hczero : (g i).count = 0 := by
        have hmem : (g i).count ∈ ((partitions K rs).map sequential_grid).map
            fun g => (g i).count := List.mem_map_of_mem _ hg
        exact List.sum_eq_zero_iff.mp hsum _ hmem
      obtain ⟨slice, hs, rfl⟩ := List.mem_map.mp hg
      exact ⟨hczero, sequential_grid_inv slice (hslice slice hs) i hczero⟩
    rw [merge_acc_zero _ i hall]

/-- Splitting the empty sequence yields `K` empty slices. -/
lemma partitions_nil (K : ℕ) : partitions K [] = List.replicate K [] := by
  unfold partitions split_size
  simp

/-- Every cell of the reduced grid of an empty input is the zero pixel. -/
lemma gridK_nil_cell (K : ℕ) (i : ℕ) : gridK K [] i = ⟨0, 0⟩ := by
  have h1 : (partitions K []).map sequential_grid = List.replicate K g0 := by
    rw [partitions_nil, List.map_replicate]
    rfl
  show merge_cell ((partitions K []).map sequential_grid) i = ⟨0, 0⟩
  rw [h1]
  have hz : merge_acc (List.replicate K g0) i = ⟨0, 0⟩ :=
    merge_acc_zero _ i (by intro g hg; rw [List.eq_of_mem_replicate hg]; exact ⟨rfl, rfl⟩)
  unfold merge_cell
  rw [hz]
  simp

/-- The weight of a zero cell is zero. -/
lemma cell_weight_zero (g : ℕ → grid_pixel) (i : ℕ) (h : g i = ⟨0, 0⟩) :
    cell_weight g i = 0 := by
  unfold cell_weight
  rw [h]
  simp [f32, roundF]

/-- Folding the maximum over a list of zeros starting from zero gives zero. -/
lemma foldl_max_zero : ∀ (l : List ℚ), (∀ x ∈ l, x = 0) → l.foldl max 0 = 0 := by
  intro l
  induction l with
  | nil => intro _; rfl
  | cons x xs ih =>
    intro h
    rw [List.foldl_cons, h x (List.mem_cons_self x xs)]
    simp only [max_self]
    exact ih (fun y hy => h y (List.mem_cons_of_mem x hy))

/-- Bound for one cell coordinate of the float pipeline: when the coordinate
lies strictly between `lo` and `hi`, and the exact product of
`resolution_inv` with the box extent inflated by the two rounding factors
stays below 256, then the truncated coordinate is at most 255. -/
lemma coord_floor_le (lo hi v : ℚ) (h1 : lo < v) (h2 : v < hi)
    (hbound : resolution_inv * ((hi - lo) * (16777217/16777216)) * (16777217/16777216) < 256) :
    (⌊f32 (resolution_inv * f32 (v - lo))⌋).toNat ≤ 255 := by
  have hd0 : (0:ℚ) < v - lo := by linarith
  have hinv : (0:ℚ) ≤ resolution_inv := by decide
  have hsub0 : 0 ≤ f32 (v - lo) := f32_nonneg _ hd0.le
  have hp0 : 0 ≤ resolution_inv * f32 (v - lo) := mul_nonneg hinv hsub0
  have hple : resolution_inv * f32 (v - lo)
      ≤ resolution_inv * ((hi - lo) * (16777217/16777216)) := by
    apply mul_le_mul_of_nonneg_left _ hinv
    calc f32 (v - lo) ≤ (v - lo) * (16777217/16777216) := f32_le _ hd0.le
      _ ≤ (hi - lo) * (16777217/16777216) :=
          mul_le_mul_of_nonneg_right (by linarith) (by norm_num)
  have hwle : f32 (resolution_inv * f32 (v - lo))
      ≤ resolution_inv * ((hi - lo) * (16777217/16777216)) * (16777217/16777216) := by
    calc f32 (resolution_inv * f32 (v - lo))
        ≤ resolution_inv * f32 (v - lo) * (16777217/16777216) := f32_le _ hp0
      _ ≤ resolution_inv * ((hi - lo) * (16777217/16777216)) * (16777217/16777216) :=
          mul_le_mul_of_nonneg_right hple (by norm_num)
  have hlt : f32 (resolution_inv * f32 (v - lo)) < 256 := lt_of_le_of_lt hwle hbound
  have hfl : ⌊f32 (resolution_inv * f32 (v - lo))⌋ < 256 := by
    rw [Int.floor_lt]
    exact_mod_cast hlt
  omega

/-- The horizontal cell coordinate of an in-box record is at most 255. -/
lemma cell_x_le (r : row) (hx1 : BBOX 0 < r.x) (hx2 : r.x < BBOX 2) : cell_x r ≤ 255 :=
  coord_floor_le (BBOX 0) (BBOX 2) r.x hx1 hx2 (by decide)

/-- The vertical cell coordinate of an in-box record is at most 255. -/
lemma cell_y_le (r : row) (hy1 : BBOX 1 < r.y) (hy2 : r.y < BBOX 3) : cell_y r ≤ 255 :=
  coord_floor_le (BBOX 1) (BBOX 3) r.y hy1 hy2 (by decide)

/-- Evolution of the cell of `r_in` along a run of identical records: the
value stays at least one and the count advances modulo the `uint32_t`
modulus, exactly one wrapped increment per record. -/
lemma repl_fold_r_in : ∀ (n : ℕ) (g : ℕ → grid_pixel),
    1 ≤ (g 256).avg → (g 256).count < 4294967296 →
    1 ≤ (((List.replicate n r_in).foldl acc_row g) 256).avg ∧
    (((List.replicate n r_in).foldl acc_row g) 256).count
      = ((g 256).count + n) % 4294967296 := by
  intro n
  induction n with
  | zero =>
    intro g ha hc
    rw [List.replicate_zero, List.foldl_nil]
    exact ⟨ha, by omega⟩
  | succ n ih =>
    intro g ha hc
    rw [List.replicate_succ, List.foldl_cons]
    have hci : cell_index r_in = some 256 := by decide
    have hval : (acc_row g r_in) 256
        = ⟨f32 ((g 256).avg + 1), ((g 256).count + 1) % 4294967296⟩ := by
      rw [acc_row_at g r_in 256 hci]
      norm_num [r_in]
    have hcount : ((acc_row g r_in) 256).count = ((g 256).count + 1) % 4294967296 := by
      rw [hval]
    obtain ⟨ha2, hc2⟩ := ih (acc_row g r_in)
      (by rw [hval]; exact one_le_f32_add_one _ ha)
      (by rw [hcount]; exact Nat.mod_lt _ (by norm_num))
    rw [hcount] at hc2
    refine ⟨ha2, ?_⟩
    rw [hc2]
    omega

/-- C1: the split of `grid` does not cover the input when the record count is
not divisible by `CONCURRENCY_LEVEL`: on four records the three slices hold
only the first three records in total, so the fourth record is handed to no
partition aggregator. -/
theorem partitions_drop_remainder :
    ((partitions CONCURRENCY_LEVEL rows4).map List.length).sum = 3 ∧
    rows4.length = 4 ∧
    (partitions CONCURRENCY_LEVEL rows4).join = rows4.take 3 :=
  ⟨by decide, by decide, by decide⟩

/-- C2: the merged per-cell counts are not invariant in the concurrency
level: five equal in-box records produce a count of 5 at their cell when the
reducer runs with one slice but only 4 with two slices, because each of the
two slices holds two records and the fifth is dropped. -/
theorem merged_counts_depend_on_K :
    (gridK 1 rows5 256).count = 5 ∧ (gridK 2 rows5 256).count = 4 :=
  ⟨by decide, by decide⟩

/-- C3: two records with amounts 10 and 20 mapping to the same cell do not
produce the average 15 with count 2 in the grid returned by the reducer:
with `CONCURRENCY_LEVEL = 3` the slice size is `2 / 3 = 0`, every slice is
empty and the cell stays zero, while a single-slice run shows the intended
average. -/
theorem grid_pair_loses_records :
    grid rows_pair 256 = ⟨0, 0⟩ ∧ gridK 1 rows_pair 256 = ⟨15, 2⟩ :=
  ⟨by decide, by decide⟩

/-- C4: ingestion does not stop at the first malformed line: `read` pushes
one row for every line of the input, so the three-line input whose second
line is not numeric yields three rows, the second with indeterminate fields,
and the third line is still read. -/
theorem read_ingests_every_line :
    (read bad_input).length = 3 ∧
    read bad_input = [⟨some 1, some 2, some 3⟩, ⟨none, none, none⟩, ⟨some 4, some 5, some 6⟩] :=
  ⟨by decide, by decide⟩

/-- C5 counterexample: the index computed by the program is not
`row * resolution_pixels + col` with the row taken from the y coordinate:
at the in-box record `r_in` the program computes index 256 while the
formula of the specification gives 1. -/
theorem cell_index_transposed :
    cell_index r_in = some 256 ∧ cell_index_spec r_in = some 1 ∧ (256 : ℕ) ≠ 1 :=
  ⟨by decide, by decide, by decide⟩

/-- C5 amended: for every point strictly inside the bounding box the cell
index is `cell_x * pixel_resolution + cell_y`, with the coordinate computed
from x as the major coordinate; a record half a meter inside the southwest
corner maps to cell 0 and one half a meter inside the northeast corner maps
to the last cell. -/
theorem cell_index_xmajor :
    (∀ r : row, in_bbox r → cell_index r = some (cell_x r * pixel_resolution + cell_y r)) ∧
    cell_index ⟨BBOX 0 + 1/2, BBOX 1 + 1/2, 0⟩ = some 0 ∧
    cell_index ⟨BBOX 2 - 1/2, BBOX 3 - 1/2, 0⟩ = some (grid_size - 1) :=
  ⟨fun r hb => by unfold cell_index; rw [if_pos hb], by decide, by decide⟩

/-- Witness for the amended C5 statement at the concrete record `r_in`. -/
theorem cell_index_xmajor_witness :
    cell_index r_in = some (cell_x r_in * pixel_resolution + cell_y r_in) :=
  cell_index_xmajor.1 r_in (by decide)

/-- C6: a record lying exactly on any of the four edges of the bounding box
fails the strict box test, maps to no cell, and leaves every cell of the
accumulating grid unchanged. -/
theorem edge_points_excluded (r : row)
    (h : r.x = BBOX 0 ∨ r.x = BBOX 2 ∨ r.y = BBOX 1 ∨ r.y = BBOX 3) :
    cell_index r = none ∧ ∀ g : ℕ → grid_pixel, acc_row g r = g := by
  have hnot : ¬ in_bbox r := by
    rintro ⟨h1, h2, h3, h4⟩
    rcases h with h | h | h | h
    · rw [h] at h1; exact lt_irrefl _ h1
    · rw [h] at h2; exact lt_irrefl _ h2
    · rw [h] at h3; exact lt_irrefl _ h3
    · rw [h] at h4; exact lt_irrefl _ h4
  have hci : cell_index r = none := by
    unfold cell_index
    rw [if_neg hnot]
  exact ⟨hci, fun g => acc_row_none g r hci⟩

/-- Witness for C6 at a record lying exactly on the west edge. -/
theorem edge_points_excluded_witness :
    cell_index ⟨BBOX 0, -8257635, 5⟩ = none :=
  (edge_points_excluded ⟨BBOX 0, -8257635, 5⟩ (Or.inl rfl)).1

/-- C7: with zero input records every cell of the final grid is the zero
pixel, and the normalization denominator computed by the renderer is zero. -/
theorem grid_empty_all_zero :
    (∀ i, grid [] i = ⟨0, 0⟩) ∧ max_weight (grid []) = 0 := by
  have hcell : ∀ i, grid [] i = ⟨0, 0⟩ := fun i => gridK_nil_cell CONCURRENCY_LEVEL i
  refine ⟨hcell, ?_⟩
  unfold max_weight
  rw [cell_weight_zero _ 0 (hcell 0)]
  apply foldl_max_zero
  intro x hx
  obtain ⟨i, _, rfl⟩ := List.mem_map.mp hx
  exact cell_weight_zero _ i (hcell i)

/-- C8 counterexample: the zero-count invariant fails in the program once a
cell accumulates 4294967296 records: the `uint32_t` count wraps back to
zero while the accumulated `float` value stays at least one, so the claim
quantified over every input is false. -/
theorem count_zero_avg_zero_wrap :
    (sequential_grid (List.replicate 4294967296 r_in) 256).count = 0 ∧
    (sequential_grid (List.replicate 4294967296 r_in) 256).avg ≠ 0 := by
  have hsplit : List.replicate 4294967296 r_in = r_in :: List.replicate 4294967295 r_in := rfl
  have hci : cell_index r_in = some 256 := by decide
  have hg1 : (acc_row g0 r_in) 256 = ⟨1, 1⟩ := by
    rw [acc_row_some g0 r_in 256 hci]
    norm_num [g0, r_in]
    decide
  have hrun := repl_fold_r_in 4294967295 (acc_row g0 r_in)
    (by rw [hg1]) (by rw [hg1]; norm_num)
  have hseq : sequential_grid (List.replicate 4294967296 r_in)
      = (List.replicate 4294967295 r_in).foldl acc_row (acc_row g0 r_in) := by
    rw [sequential_grid, hsplit, List.foldl_cons]
  rw [hseq]
  obtain ⟨ha, hc⟩ := hrun
  rw [hg1] at hc
  refine ⟨?_, ?_⟩
  · rw [hc]
    decide
  · intro h0
    rw [h0] at ha
    norm_num at ha

/-- C8 amended: in every partial grid produced by a partition aggregator on
a slice of fewer than 4294967296 records, and in the final grid returned by
the reducer on fewer than 4294967296 records, every cell with a zero count
holds a zero accumulated value; the bound is what keeps every `uint32_t`
count increment and accumulation below the wraparound. -/
theorem count_zero_avg_zero :
    (∀ (rs : List row), rs.length < 4294967296 → ∀ (i : ℕ),
      (sequential_grid rs i).count = 0 → (sequential_grid rs i).avg = 0) ∧
    (∀ (K : ℕ) (rs : List row), rs.length < 4294967296 → ∀ (i : ℕ),
      (gridK K rs i).count = 0 → (gridK K rs i).avg = 0) :=
  ⟨sequential_grid_inv, gridK_inv⟩

/-- Witness for the amended C8 at the empty slice and cell 0. -/
theorem count_zero_avg_zero_witness :
    (sequential_grid [] 0).count = 0 ∧ (sequential_grid [] 0).avg = 0 :=
  ⟨rfl, count_zero_avg_zero.1 [] (by norm_num) 0 rfl⟩

/-- C9: the three fields of a fully numeric line are consumed in the order
amount, then y, then x. -/
theorem scan_field_order (a b c : ℚ) (rest : List (Option ℚ)) :
    (scan_line (some a :: some b :: some c :: rest)).amount = some a ∧
    (scan_line (some a :: some b :: some c :: rest)).y = some b ∧
    (scan_line (some a :: some b :: some c :: rest)).x = some c :=
  ⟨rfl, rfl, rfl⟩

/-- C10: the flat index computed for every record that passes the strict box
test is below `grid_size`, so the element access of `sequential_grid` stays
inside the cell array, the float rounding of the two products included. -/
theorem cell_index_lt_grid_size (r : row) (n : ℕ) (h : cell_index r = some n) :
    n < grid_size := by
  unfold cell_index at h
  by_cases hb : in_bbox r
  · rw [if_pos hb] at h
    obtain ⟨h1, h2, h3, h4⟩ := hb
    have hx := cell_x_le r h1 h2
    have hy := cell_y_le r h3 h4
    have hn : n = cell_x r * pixel_resolution + cell_y r := (Option.some_inj.mp h).symm
    rw [hn]
    show cell_x r * pixel_resolution + cell_y r < grid_size
    unfold grid_size pixel_resolution
    omega
  · rw [if_neg hb] at h
    exact Option.noConfusion h

/-- Witness for C10 at the concrete record `r_in`. -/
theorem cell_index_lt_grid_size_witness :
    cell_index r_in = some 256 ∧ 256 < grid_size :=
  ⟨by decide, cell_index_lt_grid_size r_in 256 (by decide)⟩
